import Mathlib

/-!
Verification development for the jsonfind matching/traversal core
(`src/jsonfind/jsonfind.py`).  JSON values are embedded as an inductive
type, Python numbers are modelled as (unbounded) integers, and the
comparator library, the tree walker, the key-path walker and the JSON
Pointer encoder are translated function by function from the source.
Functions that can raise in Python return `Option` here, with `none`
standing for an escaping exception.
-/

set_option maxHeartbeats 1600000

/-- A JSON value: `Null | Bool | Number | String | Array | Object`.
Numbers are modelled as unbounded integers (Python `int`); objects keep
their entries in insertion order, as Python dicts do. -/
inductive JsonValue where
  | null
  | bool (b : Bool)
  | num (n : Int)
  | str (s : String)
  | arr (items : List JsonValue)
  | obj (entries : List (String × JsonValue))

/-- One step of a Location: an object key or an array index. -/
inductive Step where
  | key (s : String)
  | idx (n : Nat)
deriving DecidableEq

/-- A Location: the path of steps from the root to a node. -/
abbrev Location := List Step

/-- Python `bool` seen as an `int` (True = 1, False = 0). -/
def bint (b : Bool) : Int := if b then 1 else 0

mutual

/-- Size measure on JSON values, used for termination and for the
no-value-equals-its-strict-subvalue argument. -/
def jsize : JsonValue → Nat
  | .null => 1
  | .bool _ => 1
  | .num _ => 1
  | .str _ => 1
  | .arr xs => 1 + jsizeList xs
  | .obj kvs => 1 + jsizeDict kvs

def jsizeList : List JsonValue → Nat
  | [] => 0
  | x :: xs => 1 + jsize x + jsizeList xs

def jsizeDict : List (String × JsonValue) → Nat
  | [] => 0
  | p :: xs => 1 + jsize p.2 + jsizeDict xs

end

mutual

/-- Python `==` on JSON values (the source's `EQ`): structural equality,
with dicts compared order-insensitively (same length, every key of the
left dict present in the right with an equal value) and Python's
`True == 1` / `False == 0` cross-type bool/int equality. -/
def pyEq : JsonValue → JsonValue → Bool
  | .null, .null => true
  | .bool a, .bool b => a == b
  | .bool a, .num b => bint a == b
  | .num a, .bool b => a == bint b
  | .num a, .num b => a == b
  | .str a, .str b => a == b
  | .arr a, .arr b => pyEqList a b
  | .obj a, .obj b => a.length == b.length && pyEqDict a b
  | _, _ => false

def pyEqList : List JsonValue → List JsonValue → Bool
  | [], [] => true
  | a :: as2, b :: bs2 => pyEq a b && pyEqList as2 bs2
  | _, _ => false

def pyEqDict : List (String × JsonValue) → List (String × JsonValue) → Bool
  | [], _ => true
  | (k, v) :: rest, b =>
      (match List.lookup k b with
       | some w => pyEq v w
       | none => false) && pyEqDict rest b

end

mutual

/-- Well-formedness of a JSON value as produced by a Python JSON parser:
every object has pairwise distinct keys (Python dicts cannot hold
duplicate keys). -/
def wf : JsonValue → Bool
  | .null => true
  | .bool _ => true
  | .num _ => true
  | .str _ => true
  | .arr xs => wfList xs
  | .obj kvs => wfDict kvs

def wfList : List JsonValue → Bool
  | [] => true
  | x :: xs => wf x && wfList xs

def wfDict : List (String × JsonValue) → Bool
  | [] => true
  | (k, v) :: rest => rest.all (fun p => !(p.1 == k)) && wf v && wfDict rest

end

/-- Helper for `get_children` on arrays: `enumerate(obj)` starting at `n`. -/
def enumSteps (n : Nat) : List JsonValue → List (Step × JsonValue)
  | [] => []
  | x :: xs => (Step.idx n, x) :: enumSteps (n + 1) xs

/-- `JsonFind.get_children`: `obj.items()` for dicts, `enumerate(obj)`
for lists, `[]` otherwise. -/
def get_children : JsonValue → List (Step × JsonValue)
  | .obj kvs => kvs.map (fun p => (Step.key p.1, p.2))
  | .arr xs => enumSteps 0 xs
  | _ => []

/-- Combined size of a child list, the termination measure for the
walker's inner loop. -/
def childSizes : List (Step × JsonValue) → Nat
  | [] => 0
  | p :: rest => 1 + jsize p.2 + childSizes rest

theorem jsize_pos (o : JsonValue) : 1 ≤ jsize o := by
  cases o <;> simp [jsize]

theorem childSizes_enumSteps (xs : List JsonValue) :
    ∀ n, childSizes (enumSteps n xs) = jsizeList xs := by
  induction xs with
  | nil => intro n; rfl
  | cons x xs ih => intro n; simp [enumSteps, childSizes, jsizeList, ih]

theorem childSizes_map_key (kvs : List (String × JsonValue)) :
    childSizes (kvs.map (fun p => (Step.key p.1, p.2))) = jsizeDict kvs := by
  induction kvs with
  | nil => rfl
  | cons p rest ih => simp [childSizes, jsizeDict, ih]

theorem childSizes_get_children_lt (o : JsonValue) :
    childSizes (get_children o) < jsize o := by
  cases o with
  | arr xs => simp [get_children, jsize, childSizes_enumSteps]
  | obj kvs => simp [get_children, jsize, childSizes_map_key]
  | null => simp [get_children, jsize, childSizes]
  | bool b => simp [get_children, jsize, childSizes]
  | num n => simp [get_children, jsize, childSizes]
  | str s => simp [get_children, jsize, childSizes]

mutual

/-- The shared shape of the source's walker generators
(`filter_eq`, `filter_is`, `filter_compare`, `filter_compare_subset`,
`filter_compare_superset`, `filter_subset`): if `cmp obj target` holds,
yield the empty location and stop; otherwise recurse into the children
in stored order, prefixing each yielded location with the child's step.
The lazy generator is modelled by the (finite) list of all its yields,
in yield order. -/
def filterWith (cmp : JsonValue → JsonValue → Bool) (obj target : JsonValue) :
    List Location :=
  if cmp obj target then [[]]
  else filterChildren cmp (get_children obj) target
termination_by jsize obj
decreasing_by
  have := childSizes_get_children_lt obj
  omega

/-- The walker's loop over `get_children obj`. -/
def filterChildren (cmp : JsonValue → JsonValue → Bool) :
    List (Step × JsonValue) → JsonValue → List Location
  | [], _ => []
  | p :: rest, target =>
      (filterWith cmp p.2 target).map (fun c => p.1 :: c)
        ++ filterChildren cmp rest target
termination_by l _ => childSizes l
decreasing_by
  · simp [childSizes]; omega
  · simp [childSizes]

end

/-- `JsonFind.filter_eq`: walk with Python `==` as the comparator. -/
def filter_eq (obj target : JsonValue) : List Location :=
  filterWith pyEq obj target

/-- `JsonFind.filter_is`: walk with Python `is` as the comparator.
Object identity is not a function of the values alone, so the identity
relation in force during one traversal is taken as a parameter. -/
def filter_is (ident : JsonValue → JsonValue → Bool) (obj target : JsonValue) :
    List Location :=
  filterWith ident obj target

/-- Indexing one step from a value: objects by key, arrays by position. -/
def getChild : JsonValue → Step → Option JsonValue
  | .obj kvs, .key k => List.lookup k kvs
  | .arr xs, .idx i => xs.get? i
  | _, _ => none

/-- Indexing from the root along a Location. -/
def resolve : JsonValue → Location → Option JsonValue
  | o, [] => some o
  | o, s :: rest =>
      match getChild o s with
      | some c => resolve c rest
      | none => none

mutual

/-- All locations of a tree in pre-order (parent first, children in
stored order).  The walker's output order is a sub-sequence of this. -/
def preorderLocs (o : JsonValue) : List Location :=
  [] :: preorderChildren (get_children o)
termination_by jsize o
decreasing_by
  have := childSizes_get_children_lt o
  omega

def preorderChildren : List (Step × JsonValue) → List Location
  | [] => []
  | p :: rest => (preorderLocs p.2).map (fun c => p.1 :: c) ++ preorderChildren rest
termination_by l => childSizes l
decreasing_by
  · simp [childSizes]; omega
  · simp [childSizes]

end

/-- Python `prev[-n:]`: the final `n` steps of `prev` (all of `prev`
when `n = 0`, since `prev[-0:]` is `prev[0:]`, or when `n ≥ len(prev)`). -/
def pySuffix (prev : Location) (n : Nat) : Location :=
  if n = 0 then prev else prev.drop (prev.length - n)

mutual

/-- `JsonFind.filter_key`: yield the accumulated path when its final
`len(target)` steps equal `target`, else recurse into the children,
extending the accumulated path. -/
def filter_key (obj : JsonValue) (target : List Step) (prev : Location) :
    List Location :=
  if pySuffix prev target.length = target then [[]]
  else filterKeyChildren (get_children obj) target prev
termination_by jsize obj
decreasing_by
  have := childSizes_get_children_lt obj
  omega

def filterKeyChildren : List (Step × JsonValue) → List Step → Location → List Location
  | [], _, _ => []
  | p :: rest, target, prev =>
      (filter_key p.2 target (prev ++ [p.1])).map (fun c => p.1 :: c)
        ++ filterKeyChildren rest target prev
termination_by l _ _ => childSizes l
decreasing_by
  · simp [childSizes]; omega
  · simp [childSizes]

end

theorem jsize_lt_of_mem_arr {x : JsonValue} {xs : List JsonValue}
    (h : x ∈ xs) : jsize x < jsize (JsonValue.arr xs) := by
  induction xs with
  | nil => cases h
  | cons y ys ih =>
      rcases List.mem_cons.mp h with h | h
      · subst h; simp [jsize, jsizeList]; omega
      · have := ih h
        simp [jsize, jsizeList] at *
        omega

theorem jsize_lt_of_mem_obj {p : String × JsonValue}
    {kvs : List (String × JsonValue)} (h : p ∈ kvs) :
    jsize p.2 < jsize (JsonValue.obj kvs) := by
  induction kvs with
  | nil => cases h
  | cons q qs ih =>
      rcases List.mem_cons.mp h with h | h
      · subst h; simp [jsize, jsizeDict]; omega
      · have := ih h
        simp [jsize, jsizeDict] at *
        omega

/-- `compare_subset(a, b, key_fn, val_fn)`: every element of `b` has a
matching element in `a`; recursive over two arrays and over two dicts
(key candidates filtered through `key_fn`), falling through to
`val_fn a b` for every other shape combination. -/
def compare_subset (a b : JsonValue) (key_fn val_fn : JsonValue → JsonValue → Bool) :
    Bool :=
  match a, b with
  | .arr as2, .arr bs2 =>
      bs2.attach.all (fun ib =>
        as2.any (fun ia => compare_subset ia ib.1 key_fn val_fn))
  | .obj as2, .obj bs2 =>
      bs2.attach.all (fun pb =>
        (as2.filter (fun pa => key_fn (.str pa.1) (.str pb.1.1))).any
          (fun pa => compare_subset pa.2 pb.1.2 key_fn val_fn))
  | _, _ => val_fn a b
termination_by jsize b
decreasing_by
  · exact jsize_lt_of_mem_arr ib.2
  · exact jsize_lt_of_mem_obj pb.2

/-- `compare_superset(a, b, key_fn, val_fn)`: symmetric — every element
of `a` must be matched in `b`. -/
def compare_superset (a b : JsonValue) (key_fn val_fn : JsonValue → JsonValue → Bool) :
    Bool :=
  match a, b with
  | .arr as2, .arr bs2 =>
      as2.attach.all (fun ia =>
        bs2.any (fun ib => compare_superset ia.1 ib key_fn val_fn))
  | .obj as2, .obj bs2 =>
      as2.attach.all (fun pa =>
        (bs2.filter (fun pb => key_fn (.str pa.1.1) (.str pb.1))).any
          (fun pb => compare_superset pa.1.2 pb.2 key_fn val_fn))
  | _, _ => val_fn a b
termination_by jsize a
decreasing_by
  · exact jsize_lt_of_mem_arr ia.2
  · exact jsize_lt_of_mem_obj pa.2

/-- `compare_set(a, b, key_fn, val_fn)`: subset and superset. -/
def compare_set (a b : JsonValue) (key_fn val_fn : JsonValue → JsonValue → Bool) :
    Bool :=
  compare_subset a b key_fn val_fn && compare_superset a b key_fn val_fn

/-- `JsonFind.filter_compare`: walk with `compare_set` as comparator. -/
def filter_compare (key_fn val_fn : JsonValue → JsonValue → Bool)
    (obj target : JsonValue) : List Location :=
  filterWith (fun o t => compare_set o t key_fn val_fn) obj target

/-- `JsonFind.filter_compare_subset`. -/
def filter_compare_subset (key_fn val_fn : JsonValue → JsonValue → Bool)
    (obj target : JsonValue) : List Location :=
  filterWith (fun o t => compare_subset o t key_fn val_fn) obj target

/-- `JsonFind.filter_compare_superset`. -/
def filter_compare_superset (key_fn val_fn : JsonValue → JsonValue → Bool)
    (obj target : JsonValue) : List Location :=
  filterWith (fun o t => compare_superset o t key_fn val_fn) obj target

/-- `JsonFind.issubset(obj, target)`: shallow, container-only subset
test — for two dicts, `obj.items() >= target.items()` (every pair of
`target` occurs in `obj` with an `==`-equal value); for two lists,
`all(x in obj for x in target)`; `False` for every other combination. -/
def issubset (obj target : JsonValue) : Bool :=
  match target, obj with
  | .obj ts, .obj os =>
      ts.all (fun p =>
        match List.lookup p.1 os with
        | some w => pyEq w p.2
        | none => false)
  | .arr ts, .arr os => ts.all (fun x => os.any (fun y => pyEq x y))
  | _, _ => false

/-- `JsonFind.filter_subset`: walk with `issubset` as comparator. -/
def filter_subset (obj target : JsonValue) : List Location :=
  filterWith issubset obj target

/-- Python `a in b`, with `none` modelling the `TypeError` raised when
`b` is not a container or string, or when `a` is an unhashable dict key. -/
def pyIn (a b : JsonValue) : Option Bool :=
  match b with
  | .str bs =>
      match a with
      | .str as2 => some (decide (as2.data <:+: bs.data))
      | _ => none
  | .arr xs => some (xs.any (fun y => pyEq a y))
  | .obj kvs =>
      match a with
      | .str s => some (kvs.any (fun p => p.1 == s))
      | .arr _ => none
      | .obj _ => none
      | _ => some false
  | _ => none

/-- `IN1(a, b)`: `a in b`, with `TypeError` caught and turned into `False`. -/
def IN1 (a b : JsonValue) : Bool := (pyIn a b).getD false

/-- `IN2(a, b)`: `b in a`, with `TypeError` caught and turned into `False`. -/
def IN2 (a b : JsonValue) : Bool := (pyIn b a).getD false

/-- Contents of a glob character class: `a` matches a bare character,
`a-z` a codepoint range (a dash first or last is literal). -/
def classHas : List Char → Char → Bool
  | [], _ => false
  | a :: '-' :: b :: rest, c =>
      (decide (a ≤ c) && decide (c ≤ b)) || classHas rest c
  | a :: rest, c => a == c || classHas rest c

/-- Scan for the `]` closing a glob character class, returning the
contents and the remaining pattern. -/
def splitClass : List Char → Option (List Char × List Char)
  | [] => none
  | c :: rest =>
      if c = ']' then some ([], rest)
      else (splitClass rest).map (fun pr => (c :: pr.1, pr.2))

/-- Parse what follows a `[` in a glob pattern: an optional `!`
(negation), then the class contents, where a `]` directly after `[` or
`[!` is a literal member.  `none` when there is no closing `]`. -/
def parseClass (p : List Char) : Option (Bool × List Char × List Char) :=
  let neg : Bool := p.head? == some '!'
  let q := if neg then p.drop 1 else p
  let lit : Bool := q.head? == some ']'
  let r := if lit then q.drop 1 else q
  (splitClass r).map (fun pr => (neg, (if lit then ']' :: pr.1 else pr.1), pr.2))

theorem splitClass_length :
    ∀ q cls rest, splitClass q = some (cls, rest) → rest.length < q.length := by
  intro q
  induction q with
  | nil => intro cls rest h; simp [splitClass] at h
  | cons c q2 ih =>
      intro cls rest h
      rw [splitClass] at h
      by_cases hc : c = ']'
      · simp [hc] at h
        simp [h.2.symm]
      · simp only [if_neg hc, Option.map_eq_some'] at h
        obtain ⟨pr, hpr, hh⟩ := h
        have := ih pr.1 pr.2 hpr
        cases hh
        simp
        omega

theorem parseClass_length {p : List Char} {neg : Bool} {cls rest : List Char}
    (h : parseClass p = some (neg, cls, rest)) : rest.length ≤ p.length := by
  simp only [parseClass, Option.map_eq_some'] at h
  obtain ⟨pr, hpr, hh⟩ := h
  have h1 := splitClass_length _ pr.1 pr.2 hpr
  have hrest : rest = pr.2 := by
    have := congrArg (fun t => t.2.2) hh
    simpa using this.symm
  have hrlen : rest.length = pr.2.length := by rw [hrest]
  have h2 : ∀ (b : Bool) (l : List Char), (if b = true then l.drop 1 else l).length ≤ l.length := by
    intro b l; split <;> simp
  have h3 := h2 (p.head? == some '!') p
  have h4 := h2 ((if (p.head? == some '!') = true then p.drop 1 else p).head? == some ']')
    (if (p.head? == some '!') = true then p.drop 1 else p)
  omega

/-- Shell glob matching of a whole string against a pattern, as
`fnmatch.fnmatch` (POSIX `normcase` is the identity): `*` matches any
run, `?` any single character, `[...]`/`[!...]` character classes, an
unterminated `[` is literal.  (One approximation: CPython compiles the
glob to a regex, so a reversed range such as `[z-a]` raises `re.error`
there; here such a range simply matches no character.) -/
def globMatch : List Char → List Char → Bool
  | [], s => s.isEmpty
  | '*' :: p, s =>
      globMatch p s ||
        (match s with
         | [] => false
         | _ :: s2 => globMatch ('*' :: p) s2)
  | '?' :: p, s =>
      (match s with
       | [] => false
       | _ :: s2 => globMatch p s2)
  | '[' :: p, s =>
      match hpc : parseClass p with
      | some (neg, cls, rest) =>
          (match s with
           | [] => false
           | c :: s2 => (classHas cls c != neg) && globMatch rest s2)
      | none =>
          (match s with
           | [] => false
           | c :: s2 => (c == '[') && globMatch p s2)
  | c :: p, s =>
      (match s with
       | [] => false
       | c2 :: s2 => (c == c2) && globMatch p s2)
termination_by p s => p.length + s.length
decreasing_by
  all_goals try (have hlen := parseClass_length hpc)
  all_goals simp
  all_goals omega

/-- `compare_fnmatch(a, b)`: glob match when both operands are strings,
plain equality otherwise. -/
def compare_fnmatch (a b : JsonValue) : Bool :=
  match a, b with
  | .str s, .str p => globMatch p.data s.data
  | _, _ => pyEq a b

/-- `compare_regexp(a, b)`: full-string regex match when `a` and the
pattern are strings, plain equality otherwise.  `re.fullmatch` is
modelled by the parameter `re_fullmatch pattern s`, whose `none` value
stands for `re.error` on an invalid pattern.  (JSON operands never carry
the `fullmatch` attribute of a compiled pattern, so that branch of the
source is dead here.) -/
def compare_regexp (re_fullmatch : String → String → Option Bool)
    (a b : JsonValue) : Option Bool :=
  match a with
  | .str s =>
      match b with
      | .str p => re_fullmatch p s
      | _ => some (pyEq a b)
  | _ => some (pyEq a b)

/-- `compare_regexp_substr(a, b)`: as `compare_regexp` but searching
anywhere in `a` (`re.search`). -/
def compare_regexp_substr (re_search : String → String → Option Bool)
    (a b : JsonValue) : Option Bool :=
  match a with
  | .str s =>
      match b with
      | .str p => re_search p s
      | _ => some (pyEq a b)
  | _ => some (pyEq a b)

/-- Python truthiness `bool(x)` of a JSON value (always succeeds). -/
def pyTruthy : JsonValue → Bool
  | .null => false
  | .bool b => b
  | .num n => n != 0
  | .str s => !s.isEmpty
  | .arr xs => !xs.isEmpty
  | .obj kvs => !kvs.isEmpty

/-- Python `", ".join(parts)`. -/
def joinComma : List String → String
  | [] => ""
  | [x] => x
  | x :: rest => x ++ ", " ++ joinComma rest

/-- The apostrophe character. -/
def squote : Char := Char.ofNat 39

/-- Python `repr()` of a string: CPython quote choice (double quotes
only when the string holds a single quote and no double quote), with
backslash, the chosen quote and the common control characters escaped.
(Other non-printable characters keep their literal form here.) -/
def pyReprStr (s : String) : String :=
  let q := if s.data.contains squote && !(s.data.contains '"') then '"' else squote
  let esc := s.data.flatMap (fun c =>
    if c = '\\' then ['\\', '\\']
    else if c = q then ['\\', q]
    else if c = '\n' then ['\\', 'n']
    else if c = '\r' then ['\\', 'r']
    else if c = '\t' then ['\\', 't']
    else [c])
  String.mk (q :: (esc ++ [q]))

mutual

/-- Python `repr()` of a JSON value. -/
def pyRepr : JsonValue → String
  | .null => "None"
  | .bool b => if b then "True" else "False"
  | .num n => toString n
  | .str s => pyReprStr s
  | .arr xs => "[" ++ joinComma (pyReprList xs) ++ "]"
  | .obj kvs => "\x7b" ++ joinComma (pyReprDict kvs) ++ "\x7d"

def pyReprList : List JsonValue → List String
  | [] => []
  | x :: xs => pyRepr x :: pyReprList xs

def pyReprDict : List (String × JsonValue) → List String
  | [] => []
  | (k, v) :: rest => (pyReprStr k ++ ": " ++ pyRepr v) :: pyReprDict rest

end

/-- Python `str()` of a JSON value: the string itself for strings,
`repr` otherwise. -/
def pyStr : JsonValue → String
  | .str s => s
  | v => pyRepr v

/-- The numeric value of a nonempty all-digit character list; `none`
otherwise. -/
def digitsVal (ds : List Char) : Option Nat :=
  match ds with
  | [] => none
  | _ =>
      if ds.all Char.isDigit then
        some (ds.foldl (fun acc c => acc * 10 + (c.toNat - 48)) 0)
      else none

/-- Python `int(s)` on a string: surrounding whitespace stripped, an
optional sign, then decimal digits; `none` models `ValueError`.
(Underscore grouping and non-ASCII digits are not modelled.) -/
def pyParseInt (s : String) : Option Int :=
  let t := ((s.data.dropWhile Char.isWhitespace).reverse.dropWhile Char.isWhitespace).reverse
  match t with
  | '+' :: ds => (digitsVal ds).map (fun n => (n : Int))
  | '-' :: ds => (digitsVal ds).map (fun n => -(n : Int))
  | ds => (digitsVal ds).map (fun n => (n : Int))

mutual

/-- Python ordering of two values of the kinds `compare_range` can
compare (`none` models `TypeError` for unorderable operands): ints and
bools by value, strings by code points, lists lexicographically with
the element equality checked first, as CPython does. -/
def pyOrd : JsonValue → JsonValue → Option Ordering
  | .num a, .num b => some (compare a b)
  | .num a, .bool b => some (compare a (bint b))
  | .bool a, .num b => some (compare (bint a) b)
  | .bool a, .bool b => some (compare (bint a) (bint b))
  | .str a, .str b => some (compare a b)
  | .arr a, .arr b => pyOrdList a b
  | x, y => if pyEq x y then some .eq else none

def pyOrdList : List JsonValue → List JsonValue → Option Ordering
  | [], [] => some .eq
  | [], _ :: _ => some .lt
  | _ :: _, [] => some .gt
  | x :: xs, y :: ys => if pyEq x y then pyOrdList xs ys else pyOrd x y

end

/-- Does `"-" in b` succeed, and hold?  `none` models the `TypeError`
raised when `b` is not iterable (ints, bools, None). -/
def containsDash : JsonValue → Option Bool
  | .str s => some (s.data.contains '-')
  | .arr xs => some (xs.any (fun x => pyEq x (.str "-")))
  | .obj kvs => some (kvs.any (fun p => p.1 == "-"))
  | _ => none

/-- `type(a)(s)` for a bound string `s` of a range pattern: conversion
of `s` to `a`'s Python type; `none` models a conversion error. -/
def coerceBound (a : JsonValue) (s : String) : Option JsonValue :=
  match a with
  | .null => none
  | .bool _ => some (.bool (!s.isEmpty))
  | .num _ => (pyParseInt s).map (fun n => .num n)
  | .str _ => some (.str s)
  | .arr _ => some (.arr (s.data.map (fun c => .str (String.mk [c]))))
  | .obj _ => if s.isEmpty then some (.obj []) else none

/-- A `dict()` insertion: overwrite the value at an existing key in
place, else append. -/
def dictInsert (acc : List (String × JsonValue)) (k : String) (v : JsonValue) :
    List (String × JsonValue) :=
  if acc.any (fun p => p.1 == k) then
    acc.map (fun p => if p.1 == k then (k, v) else p)
  else acc ++ [(k, v)]

/-- Build a dict from key/value pairs, later pairs overwriting earlier
ones, as `dict(pairs)` does. -/
def buildDict (l : List (String × JsonValue)) : List (String × JsonValue) :=
  l.foldl (fun acc p => dictInsert acc p.1 p.2) []

/-- One element of a sequence passed to `dict()`: a two-element array,
or a two-character string.  `some (some k, v)` is a usable pair with
string key `k`; `some (none, v)` a pair whose key is a hashable
non-string scalar (the built dict then cannot equal a JSON object);
`none` models the `TypeError`/`ValueError` for anything else. -/
def pairOfElem : JsonValue → Option (Option String × JsonValue)
  | .arr [k, v] =>
      match k with
      | .str s => some (some s, v)
      | .arr _ => none
      | .obj _ => none
      | _ => some (none, v)
  | .str s =>
      match s.data with
      | [c1, c2] => some (some (String.mk [c1]), .str (String.mk [c2]))
      | _ => none
  | _ => none

/-- Collect the pairs of a `dict(list)` conversion.  The boolean records
whether some key was a non-string scalar. -/
def collectPairs : List JsonValue → Option (Bool × List (String × JsonValue))
  | [] => some (false, [])
  | e :: rest =>
      match pairOfElem e with
      | none => none
      | some (none, _) => (collectPairs rest).map (fun pr => (true, pr.2))
      | some (some k, v) => (collectPairs rest).map (fun pr => (pr.1, (k, v) :: pr.2))

/-- `a == type(a)(b)` — the no-dash arm of `compare_range`; `none`
models an exception escaping from the conversion. -/
def eqCoerce (a b : JsonValue) : Option Bool :=
  match a with
  | .null => none
  | .bool x => some (x == pyTruthy b)
  | .num n =>
      match b with
      | .num m => some (n == m)
      | .bool x => some (n == bint x)
      | .str s => (pyParseInt s).map (fun m => n == m)
      | _ => none
  | .str s => some (s == pyStr b)
  | .arr _ =>
      match b with
      | .str s => some (pyEq a (.arr (s.data.map (fun c => .str (String.mk [c])))))
      | .arr _ => some (pyEq a b)
      | .obj kvs => some (pyEq a (.arr (kvs.map (fun p => .str p.1))))
      | _ => none
  | .obj _ =>
      match b with
      | .obj _ => some (pyEq a b)
      | .str s => if s.isEmpty then some (pyEq a (.obj [])) else none
      | .arr elems =>
          (collectPairs elems).map (fun pr =>
            if pr.1 then false else pyEq a (.obj (buildDict pr.2)))
      | _ => none

/-- `compare_range(a, b)`: with no dash in `b`, equality after coercing
`b` to `a`'s type; otherwise `b` is split at its first dash and the
inclusive bounds are tested, an empty bound meaning unbounded.  `none`
models any escaping exception (`b` not iterable, `b` a container holding
a dash but lacking `split`, conversion errors, unorderable operands). -/
def compare_range (a b : JsonValue) : Option Bool :=
  match containsDash b with
  | none => none
  | some false => eqCoerce a b
  | some true =>
      match b with
      | .str bs =>
          let bmin := String.mk (bs.data.takeWhile (fun c => !(c = '-')))
          let bmax := String.mk ((bs.data.dropWhile (fun c => !(c = '-'))).drop 1)
          let lo : Option Bool :=
            if bmin.isEmpty then some false
            else
              match coerceBound a bmin with
              | none => none
              | some t =>
                  match pyOrd t a with
                  | some o => some (o == .gt)
                  | none => none
          match lo with
          | none => none
          | some true => some false
          | some false =>
              if bmax.isEmpty then some true
              else
                match coerceBound a bmax with
                | none => none
                | some t =>
                    match pyOrd t a with
                    | some o => some (!(o == .lt))
                    | none => none
      | _ => none

/-- Python single-character `str.replace`: substitute every occurrence
of the character `c` by `rep`. -/
def replaceChar (s : List Char) (c : Char) (rep : List Char) : List Char :=
  s.flatMap (fun x => if x = c then rep else [x])

/-- `JsonFind.escape_jsonptr`: non-strings are rendered with `str()`
(decimal for indices); strings get every `~` replaced by `~0`, then
every `/` replaced by `~1`. -/
def escape_jsonptr : Step → String
  | .idx n => toString n
  | .key s => String.mk (replaceChar (replaceChar s.data '~' ['~', '0']) '/' ['~', '1'])

/-- Python `"/".join(parts)`. -/
def joinSlash : List String → String
  | [] => ""
  | [x] => x
  | x :: rest => x ++ "/" ++ joinSlash rest

/-- `JsonFind.to_jsonpointer`: `"/" + "/".join(escaped steps)`. -/
def to_jsonpointer (val : Location) : String :=
  "/" ++ joinSlash (val.map escape_jsonptr)

/-- The spec's wording of pointer escaping, as a single character pass:
`~` becomes `~0`, `/` becomes `~1`, all other characters stand. -/
def specEscapeChar (c : Char) : List Char :=
  if c = '~' then ['~', '0'] else if c = '/' then ['~', '1'] else [c]

/-- The spec's wording of step encoding: integers in decimal, strings
escaped character by character. -/
def specEscapeStep : Step → String
  | .idx n => toString n
  | .key s => String.mk (s.data.flatMap specEscapeChar)

theorem all_attach {α : Type} (l : List α) (p : α → Bool) :
    (l.attach.all fun x => p x.1) = l.all p := by
  rw [Bool.eq_iff_iff]
  simp [List.all_eq_true]

/-- Is the value an array? -/
def JsonValue.isArr : JsonValue → Bool
  | .arr _ => true
  | _ => false

/-- Is the value an object? -/
def JsonValue.isObj : JsonValue → Bool
  | .obj _ => true
  | _ => false

/-- Is the value a string? -/
def JsonValue.isStr : JsonValue → Bool
  | .str _ => true
  | _ => false

theorem compare_subset_arr (as2 bs2 : List JsonValue)
    (kf vf : JsonValue → JsonValue → Bool) :
    compare_subset (.arr as2) (.arr bs2) kf vf
      = bs2.all (fun ib => as2.any (fun ia => compare_subset ia ib kf vf)) := by
  rw [compare_subset, Bool.eq_iff_iff]
  simp [List.all_eq_true]

theorem compare_subset_obj (as2 bs2 : List (String × JsonValue))
    (kf vf : JsonValue → JsonValue → Bool) :
    compare_subset (.obj as2) (.obj bs2) kf vf
      = bs2.all (fun pb =>
          (as2.filter (fun pa => kf (.str pa.1) (.str pb.1))).any
            (fun pa => compare_subset pa.2 pb.2 kf vf)) := by
  rw [compare_subset, Bool.eq_iff_iff]
  simp [List.all_eq_true]

theorem compare_superset_arr (as2 bs2 : List JsonValue)
    (kf vf : JsonValue → JsonValue → Bool) :
    compare_superset (.arr as2) (.arr bs2) kf vf
      = as2.all (fun ia => bs2.any (fun ib => compare_superset ia ib kf vf)) := by
  rw [compare_superset, Bool.eq_iff_iff]
  simp [List.all_eq_true]

theorem compare_superset_obj (as2 bs2 : List (String × JsonValue))
    (kf vf : JsonValue → JsonValue → Bool) :
    compare_superset (.obj as2) (.obj bs2) kf vf
      = as2.all (fun pa =>
          (bs2.filter (fun pb => kf (.str pa.1) (.str pb.1))).any
            (fun pb => compare_superset pa.2 pb.2 kf vf)) := by
  rw [compare_superset, Bool.eq_iff_iff]
  simp [List.all_eq_true]

/-- C5: for all JSON values `a`, `b` and every pair of key/value
comparators, `compare_set a b` holds exactly when both
`compare_subset a b` and `compare_superset a b` hold. -/
theorem compare_set_is_subset_and_superset (a b : JsonValue)
    (key_fn val_fn : JsonValue → JsonValue → Bool) :
    compare_set a b key_fn val_fn = true ↔
      (compare_subset a b key_fn val_fn = true ∧
        compare_superset a b key_fn val_fn = true) := by
  simp [compare_set]

/-- C6: an empty array (resp. object) `b` is a subset of any array
(resp. object) `a` — vacuous truth; and for every operand pair that is
not two arrays and not two objects, both `compare_subset` and
`compare_superset` fall through to `val_fn a b` rather than returning
false automatically. -/
theorem compare_subset_empty_and_fallthrough :
    (∀ (xs : List JsonValue) (kf vf : JsonValue → JsonValue → Bool),
        compare_subset (.arr xs) (.arr []) kf vf = true) ∧
    (∀ (kvs : List (String × JsonValue)) (kf vf : JsonValue → JsonValue → Bool),
        compare_subset (.obj kvs) (.obj []) kf vf = true) ∧
    (∀ (a b : JsonValue) (kf vf : JsonValue → JsonValue → Bool),
        ¬(a.isArr = true ∧ b.isArr = true) →
        ¬(a.isObj = true ∧ b.isObj = true) →
        compare_subset a b kf vf = vf a b ∧ compare_superset a b kf vf = vf a b) := by
  refine ⟨?_, ?_, ?_⟩
  · intro xs kf vf
    simp [compare_subset_arr]
  · intro kvs kf vf
    simp [compare_subset_obj]
  · intro a b kf vf h1 h2
    cases a <;> cases b <;>
      simp_all [JsonValue.isArr, JsonValue.isObj, compare_subset, compare_superset]

theorem compare_subset_empty_and_fallthrough_witness :
    compare_subset (.num 1) (.str "x") pyEq pyEq = pyEq (.num 1) (.str "x") ∧
    compare_superset (.num 1) (.str "x") pyEq pyEq = pyEq (.num 1) (.str "x") :=
  compare_subset_empty_and_fallthrough.2.2 (.num 1) (.str "x") pyEq pyEq
    (by simp [JsonValue.isArr]) (by simp [JsonValue.isObj])

theorem replaceChar_escape (s : List Char) :
    replaceChar (replaceChar s '~' ['~', '0']) '/' ['~', '1']
      = s.flatMap specEscapeChar := by
  induction s with
  | nil => rfl
  | cons c cs ih =>
      by_cases h1 : c = '~'
      · subst h1
        simp [replaceChar, specEscapeChar] at *
        exact ih
      · by_cases h2 : c = '/'
        · subst h2
          simp [replaceChar, specEscapeChar] at *
          exact ih
        · simp [replaceChar, specEscapeChar, h1, h2] at *
          exact ih

/-- C9: for every Location, `to_jsonpointer` is `"/"` followed by the
slash-joined steps, each step rendered in decimal for indices and, for
string keys, escaped exactly as the single character pass that sends
`~` to `~0` and `/` to `~1` — i.e. the source's sequential
replace-`~`-then-replace-`/` computes that escape. -/
theorem to_jsonpointer_escapes_steps (L : Location) :
    to_jsonpointer L = "/" ++ joinSlash (L.map specEscapeStep) := by
  have hstep : ∀ st : Step, escape_jsonptr st = specEscapeStep st := by
    intro st
    cases st with
    | idx n => rfl
    | key s =>
        simp [escape_jsonptr, specEscapeStep, replaceChar_escape]
  rw [to_jsonpointer, funext hstep]


/-- C10: `issubset` is shallow and container-only — false whenever the
operands are not two dicts and not two lists (in particular for all
scalar pairs); for dicts every pair of `target` must occur in `obj`
with an `==`-equal value, so a nested value that is only a strict
subset of the corresponding value never matches (although the deep
`compare_subset` accepts it). -/
theorem issubset_shallow_container_only :
    (∀ a b : JsonValue, ¬(a.isObj = true ∧ b.isObj = true) →
        ¬(a.isArr = true ∧ b.isArr = true) → issubset a b = false) ∧
    (∀ (os ts : List (String × JsonValue)) (k : String) (v : JsonValue),
        (k, v) ∈ ts → (∀ w, List.lookup k os = some w → pyEq w v = false) →
        issubset (.obj os) (.obj ts) = false) ∧
    (issubset (.obj [("c", .obj [("d", .str "e"), ("f", .str "g")])])
        (.obj [("c", .obj [("d", .str "e")])]) = false ∧
      compare_subset (.obj [("c", .obj [("d", .str "e"), ("f", .str "g")])])
        (.obj [("c", .obj [("d", .str "e")])]) pyEq pyEq = true) := by
  refine ⟨?_, ?_, ?_, ?_⟩
  · intro a b h1 h2
    cases a <;> cases b <;> simp_all [issubset, JsonValue.isObj, JsonValue.isArr]
  · intro os ts k v hmem hval
    rw [issubset]
    rw [Bool.eq_false_iff]
    intro hall
    have := List.all_eq_true.mp hall (k, v) hmem
    revert this
    cases hlk : List.lookup k os with
    | none => simp
    | some w => simpa using hval w hlk
  · decide
  · simp [compare_subset, pyEq, List.filter]

theorem issubset_shallow_container_only_witness :
    issubset (.obj []) (.obj [("a", JsonValue.null)]) = false :=
  issubset_shallow_container_only.2.1 [] [("a", JsonValue.null)] "a" JsonValue.null
    (by simp) (by intro w hw; simp at hw)

theorem mem_enumSteps_val :
    ∀ {xs : List JsonValue} {n : Nat} {s : Step} {c : JsonValue},
      (s, c) ∈ enumSteps n xs → c ∈ xs := by
  intro xs
  induction xs with
  | nil => intro n s c h; simp [enumSteps] at h
  | cons x xs ih =>
      intro n s c h
      rw [enumSteps] at h
      rcases List.mem_cons.mp h with h | h
      · cases h; simp
      · exact List.mem_cons_of_mem _ (ih h)

theorem mem_enumSteps_iff :
    ∀ (xs : List JsonValue) (n i : Nat) (c : JsonValue),
      (Step.idx i, c) ∈ enumSteps n xs ↔ (n ≤ i ∧ xs.get? (i - n) = some c) := by
  intro xs
  induction xs with
  | nil => intro n i c; simp [enumSteps]
  | cons x xs ih =>
      intro n i c
      rw [enumSteps]
      constructor
      · intro h
        rcases List.mem_cons.mp h with h | h
        · injection h with h1 h2
          cases Step.idx.inj h1
          subst h2
          simp
        · obtain ⟨h1, h2⟩ := (ih (n + 1) i c).mp h
          refine ⟨by omega, ?_⟩
          have he : i - n = (i - (n + 1)) + 1 := by omega
          rw [he, List.get?_cons_succ]
          exact h2
      · rintro ⟨h1, h2⟩
        by_cases he : i = n
        · subst he
          rw [Nat.sub_self, List.get?_cons_zero] at h2
          cases h2
          exact List.mem_cons_self _ _
        · have hgt : n + 1 ≤ i := by omega
          have he2 : i - n = (i - (n + 1)) + 1 := by omega
          rw [he2, List.get?_cons_succ] at h2
          exact List.mem_cons_of_mem _ ((ih (n + 1) i c).mpr ⟨hgt, h2⟩)

theorem mem_get_children_obj {kvs : List (String × JsonValue)} {k : String}
    {c : JsonValue} :
    (Step.key k, c) ∈ get_children (.obj kvs) ↔ (k, c) ∈ kvs := by
  simp [get_children, List.mem_map]

theorem mem_get_children_arr {xs : List JsonValue} {i : Nat} {c : JsonValue} :
    (Step.idx i, c) ∈ get_children (.arr xs) ↔ xs.get? i = some c := by
  rw [get_children, mem_enumSteps_iff]
  simp

theorem jsize_lt_of_mem_children {o : JsonValue} {s : Step} {c : JsonValue}
    (h : (s, c) ∈ get_children o) : jsize c < jsize o := by
  cases o with
  | arr xs => exact jsize_lt_of_mem_arr (mem_enumSteps_val h)
  | obj kvs =>
      rw [get_children] at h
      obtain ⟨⟨a, b⟩, hmem, heq⟩ := List.mem_map.mp h
      injection heq with h1 h2
      subst h2
      exact jsize_lt_of_mem_obj hmem
  | null => simp [get_children] at h
  | bool b => simp [get_children] at h
  | num n => simp [get_children] at h
  | str s2 => simp [get_children] at h

theorem wfList_mem {xs : List JsonValue} {x : JsonValue}
    (hwf : wfList xs = true) (h : x ∈ xs) : wf x = true := by
  induction xs with
  | nil => cases h
  | cons y ys ih =>
      rw [wfList, Bool.and_eq_true] at hwf
      rcases List.mem_cons.mp h with h | h
      · subst h; exact hwf.1
      · exact ih hwf.2 h

theorem wfDict_mem {kvs : List (String × JsonValue)} {k : String} {v : JsonValue}
    (hwf : wfDict kvs = true) (h : (k, v) ∈ kvs) : wf v = true := by
  induction kvs with
  | nil => cases h
  | cons p rest ih =>
      obtain ⟨k0, v0⟩ := p
      rw [wfDict, Bool.and_eq_true, Bool.and_eq_true] at hwf
      rcases List.mem_cons.mp h with h | h
      · cases h; exact hwf.1.2
      · exact ih hwf.2 h

theorem wf_of_mem_children {o : JsonValue} {s : Step} {c : JsonValue}
    (ho : wf o = true) (h : (s, c) ∈ get_children o) : wf c = true := by
  cases o with
  | arr xs =>
      rw [wf] at ho
      exact wfList_mem ho (mem_enumSteps_val h)
  | obj kvs =>
      rw [wf] at ho
      rw [get_children] at h
      obtain ⟨⟨a, b⟩, hmem, heq⟩ := List.mem_map.mp h
      injection heq with h1 h2
      subst h2
      exact wfDict_mem ho hmem
  | null => simp [get_children] at h
  | bool b => simp [get_children] at h
  | num n => simp [get_children] at h
  | str s2 => simp [get_children] at h

theorem lookup_of_mem_of_wfDict :
    ∀ {kvs : List (String × JsonValue)} {k : String} {v : JsonValue},
      wfDict kvs = true → (k, v) ∈ kvs → List.lookup k kvs = some v := by
  intro kvs
  induction kvs with
  | nil => intro k v _ h; cases h
  | cons p rest ih =>
      intro k v hwf h
      obtain ⟨k0, v0⟩ := p
      rw [wfDict, Bool.and_eq_true, Bool.and_eq_true] at hwf
      rcases List.mem_cons.mp h with hh | hh
      · injection hh with h1 h2
        subst h1
        subst h2
        rw [List.lookup]
        simp
      · have hne : ¬(k = k0) := by
          intro he
          subst he
          have := List.all_eq_true.mp hwf.1.1 (k, v) hh
          simp at this
        rw [List.lookup]
        have hb : (k == k0) = false := beq_eq_false_iff_ne.mpr hne
        rw [hb]
        exact ih hwf.2 hh

theorem mem_of_lookup :
    ∀ {kvs : List (String × JsonValue)} {k : String} {v : JsonValue},
      List.lookup k kvs = some v → (k, v) ∈ kvs := by
  intro kvs
  induction kvs with
  | nil => intro k v h; simp [List.lookup] at h
  | cons p rest ih =>
      intro k v h
      obtain ⟨k0, v0⟩ := p
      rw [List.lookup] at h
      by_cases he : k = k0
      · subst he
        simp only [beq_self_eq_true] at h
        cases h
        exact List.mem_cons_self _ _
      · have hb : (k == k0) = false := beq_eq_false_iff_ne.mpr he
        rw [hb] at h
        exact List.mem_cons_of_mem _ (ih h)

theorem key_not_mem_enumSteps :
    ∀ (xs : List JsonValue) (n : Nat) (k : String) (c : JsonValue),
      (Step.key k, c) ∉ enumSteps n xs := by
  intro xs
  induction xs with
  | nil => intro n k c h; simp [enumSteps] at h
  | cons x xs2 ih =>
      intro n k c h
      rw [enumSteps] at h
      rcases List.mem_cons.mp h with hm | hm
      · cases hm
      · exact ih _ _ _ hm

theorem getChild_mem_children {o : JsonValue} {s : Step} {c : JsonValue}
    (h : getChild o s = some c) : (s, c) ∈ get_children o := by
  cases o with
  | obj kvs =>
      cases s with
      | key k => exact mem_get_children_obj.mpr (mem_of_lookup h)
      | idx i => simp [getChild] at h
  | arr xs =>
      cases s with
      | key k => simp [getChild] at h
      | idx i => exact mem_get_children_arr.mpr h
  | null => simp [getChild] at h
  | bool b => simp [getChild] at h
  | num n => simp [getChild] at h
  | str s2 => simp [getChild] at h

theorem mem_children_getChild {o : JsonValue} {s : Step} {c : JsonValue}
    (ho : wf o = true) (h : (s, c) ∈ get_children o) : getChild o s = some c := by
  cases o with
  | obj kvs =>
      cases s with
      | key k =>
          rw [wf] at ho
          exact lookup_of_mem_of_wfDict ho (mem_get_children_obj.mp h)
      | idx i =>
          rw [get_children] at h
          simp [List.mem_map] at h
  | arr xs =>
      cases s with
      | key k =>
          exfalso
          rw [get_children] at h
          exact key_not_mem_enumSteps xs 0 k c h
      | idx i => exact mem_get_children_arr.mp h
  | null => simp [get_children] at h
  | bool b => simp [get_children] at h
  | num n => simp [get_children] at h
  | str s2 => simp [get_children] at h

theorem mem_filterChildren {cmp : JsonValue → JsonValue → Bool}
    {l : List (Step × JsonValue)} {t : JsonValue} {L : Location} :
    L ∈ filterChildren cmp l t ↔
      ∃ s c L2, (s, c) ∈ l ∧ L = s :: L2 ∧ L2 ∈ filterWith cmp c t := by
  induction l with
  | nil => simp [filterChildren]
  | cons p rest ih =>
      rw [filterChildren]
      rw [List.mem_append]
      constructor
      · intro h
        rcases h with h | h
        · obtain ⟨L2, hL2, rfl⟩ := List.mem_map.mp h
          exact ⟨p.1, p.2, L2, List.mem_cons_self _ _, rfl, hL2⟩
        · obtain ⟨s, c, L2, hmem, rfl, hf⟩ := ih.mp h
          exact ⟨s, c, L2, List.mem_cons_of_mem _ hmem, rfl, hf⟩
      · rintro ⟨s, c, L2, hmem, rfl, hf⟩
        rcases List.mem_cons.mp hmem with hm | hm
        · left
          cases hm
          exact List.mem_map.mpr ⟨L2, hf, rfl⟩
        · right
          exact ih.mpr ⟨s, c, L2, hm, rfl, hf⟩

theorem jsize_resolve_le :
    ∀ (L : Location) (o v : JsonValue), resolve o L = some v → jsize v ≤ jsize o := by
  intro L
  induction L with
  | nil =>
      intro o v h
      rw [resolve] at h
      cases h
      exact le_rfl
  | cons s rest ih =>
      intro o v h
      rw [resolve] at h
      cases hg : getChild o s with
      | none => rw [hg] at h; cases h
      | some c =>
          rw [hg] at h
          have h1 := jsize_lt_of_mem_children (getChild_mem_children hg)
          have h2 := ih c v h
          omega

theorem wf_resolve :
    ∀ (L : Location) (o v : JsonValue), wf o = true → resolve o L = some v →
      wf v = true := by
  intro L
  induction L with
  | nil =>
      intro o v hwf h
      rw [resolve] at h
      cases h
      exact hwf
  | cons s rest ih =>
      intro o v hwf h
      rw [resolve] at h
      cases hg : getChild o s with
      | none => rw [hg] at h; cases h
      | some c =>
          rw [hg] at h
          exact ih c v (wf_of_mem_children hwf (getChild_mem_children hg)) h

theorem filterWith_resolves :
    ∀ (n : Nat) (o : JsonValue), jsize o ≤ n → wf o = true →
      ∀ (cmp : JsonValue → JsonValue → Bool) (t : JsonValue) (L : Location),
        L ∈ filterWith cmp o t → ∃ v, resolve o L = some v ∧ cmp v t = true := by
  intro n
  induction n using Nat.strong_induction_on with
  | _ n ih =>
      intro o hsize hwf cmp t L hmem
      rw [filterWith] at hmem
      by_cases hc : cmp o t = true
      · rw [if_pos hc] at hmem
        simp at hmem
        subst hmem
        exact ⟨o, rfl, hc⟩
      · rw [if_neg hc] at hmem
        obtain ⟨s, c, L2, hch, rfl, hf⟩ := mem_filterChildren.mp hmem
        have hlt := jsize_lt_of_mem_children hch
        have hwfc := wf_of_mem_children hwf hch
        obtain ⟨v, hres, hcmp⟩ :=
          ih (jsize c) (by omega) c le_rfl hwfc cmp t L2 hf
        refine ⟨v, ?_, hcmp⟩
        rw [resolve, mem_children_getChild hwf hch]
        exact hres

theorem filterChildren_sublist (cmp : JsonValue → JsonValue → Bool) (t : JsonValue) :
    ∀ l : List (Step × JsonValue),
      (∀ p ∈ l, (filterWith cmp p.2 t).Sublist (preorderLocs p.2)) →
      (filterChildren cmp l t).Sublist (preorderChildren l) := by
  intro l
  induction l with
  | nil =>
      intro _
      rw [filterChildren, preorderChildren]
  | cons p rest ih =>
      intro h
      rw [filterChildren, preorderChildren]
      exact List.Sublist.append
        (List.Sublist.map _ (h p (List.mem_cons_self _ _)))
        (ih (fun q hq => h q (List.mem_cons_of_mem _ hq)))

theorem filterWith_sublist :
    ∀ (n : Nat) (o : JsonValue), jsize o ≤ n →
      ∀ (cmp : JsonValue → JsonValue → Bool) (t : JsonValue),
        (filterWith cmp o t).Sublist (preorderLocs o) := by
  intro n
  induction n using Nat.strong_induction_on with
  | _ n ih =>
      intro o hsize cmp t
      rw [filterWith, preorderLocs]
      by_cases hc : cmp o t = true
      · rw [if_pos hc]
        exact List.cons_sublist_cons.mpr (List.nil_sublist _)
      · rw [if_neg hc]
        refine List.Sublist.cons _ ?_
        refine filterChildren_sublist cmp t _ (fun p hp => ?_)
        have := jsize_lt_of_mem_children hp
        exact ih (jsize p.2) (by omega) p.2 le_rfl cmp t

/-- C1: for every comparator, root, and target, every Location yielded
by the walker shape shared by `filter_eq`, `filter_is`,
`filter_compare`, `filter_compare_subset` and `filter_compare_superset`
resolves from the root (objects by key, arrays by position) to a value
satisfying the comparator against the target, and the yields form a
sub-sequence of the pre-order enumeration of all locations — object
children in stored key order, array children in index order. -/
theorem walker_yields_resolve_in_preorder
    (cmp : JsonValue → JsonValue → Bool) (root target : JsonValue)
    (hwf : wf root = true) :
    (∀ L ∈ filterWith cmp root target,
        ∃ v, resolve root L = some v ∧ cmp v target = true) ∧
    (filterWith cmp root target).Sublist (preorderLocs root) :=
  ⟨fun L h => filterWith_resolves (jsize root) root le_rfl hwf cmp target L h,
   filterWith_sublist (jsize root) root le_rfl cmp target⟩

theorem walker_yields_resolve_in_preorder_witness :
    (∀ L ∈ filterWith pyEq (.obj [("a", .num 1)]) (.num 1),
        ∃ v, resolve (.obj [("a", .num 1)]) L = some v ∧ pyEq v (.num 1) = true) ∧
    (filterWith pyEq (.obj [("a", .num 1)]) (.num 1)).Sublist
      (preorderLocs (.obj [("a", .num 1)])) :=
  walker_yields_resolve_in_preorder pyEq (.obj [("a", .num 1)]) (.num 1) (by decide)

theorem children_step_unique {o : JsonValue} {s : Step} {c1 c2 : JsonValue}
    (hwf : wf o = true) (h1 : (s, c1) ∈ get_children o)
    (h2 : (s, c2) ∈ get_children o) : c1 = c2 := by
  have e1 := mem_children_getChild hwf h1
  have e2 := mem_children_getChild hwf h2
  rw [e1] at e2
  cases e2
  rfl

theorem filterWith_no_extension :
    ∀ (n : Nat) (o : JsonValue), jsize o ≤ n → wf o = true →
      ∀ (cmp : JsonValue → JsonValue → Bool) (t : JsonValue) (L1 L2 tail : Location),
        L1 ∈ filterWith cmp o t → L2 ∈ filterWith cmp o t →
        L2 = L1 ++ tail → tail = [] := by
  intro n
  induction n using Nat.strong_induction_on with
  | _ n ih =>
      intro o hsize hwf cmp t L1 L2 tail h1 h2 happ
      rw [filterWith] at h1 h2
      by_cases hc : cmp o t = true
      · rw [if_pos hc] at h1 h2
        simp at h1 h2
        subst h1
        subst h2
        simpa using happ.symm
      · rw [if_neg hc] at h1 h2
        obtain ⟨s1, c1, T1, hch1, rfl, hf1⟩ := mem_filterChildren.mp h1
        obtain ⟨s2, c2, T2, hch2, rfl, hf2⟩ := mem_filterChildren.mp h2
        rw [List.cons_append] at happ
        injection happ with hs ht
        subst hs
        have hcc := children_step_unique hwf hch2 hch1
        subst hcc
        have hlt := jsize_lt_of_mem_children hch1
        exact ih (jsize c2) (by omega) c2 le_rfl
          (wf_of_mem_children hwf hch1) cmp t T1 T2 tail hf1 hf2 ht

/-- C2: when the comparator holds at the root of a (sub)tree the walker
yields exactly the one empty location and does not descend into the
children; consequently, among the locations yielded for any root, none
is a strict prefix-extension of another. -/
theorem walker_prunes_matched_subtrees
    (cmp : JsonValue → JsonValue → Bool) (obj target : JsonValue)
    (hwf : wf obj = true) :
    (cmp obj target = true → filterWith cmp obj target = [[]]) ∧
    (∀ L1 L2 tail, L1 ∈ filterWith cmp obj target →
      L2 ∈ filterWith cmp obj target → L2 = L1 ++ tail → tail = []) := by
  constructor
  · intro hc
    rw [filterWith, if_pos hc]
  · intro L1 L2 tail h1 h2 happ
    exact filterWith_no_extension (jsize obj) obj le_rfl hwf cmp target
      L1 L2 tail h1 h2 happ

theorem walker_prunes_matched_subtrees_witness :
    filterWith pyEq (.obj [("a", .num 1)]) (.obj [("a", .num 1)]) = [[]] :=
  (walker_prunes_matched_subtrees pyEq (.obj [("a", .num 1)])
    (.obj [("a", .num 1)]) (by decide)).1 (by decide)

theorem pyEqList_refl_aux :
    ∀ xs : List JsonValue, (∀ x ∈ xs, pyEq x x = true) → pyEqList xs xs = true := by
  intro xs
  induction xs with
  | nil => intro _; rfl
  | cons x rest ih =>
      intro h
      rw [pyEqList, Bool.and_eq_true]
      exact ⟨h x (List.mem_cons_self _ _),
        ih (fun y hy => h y (List.mem_cons_of_mem _ hy))⟩

theorem pyEqDict_self_aux :
    ∀ (sub whole : List (String × JsonValue)),
      (∀ k v, (k, v) ∈ sub → List.lookup k whole = some v ∧ pyEq v v = true) →
      pyEqDict sub whole = true := by
  intro sub
  induction sub with
  | nil => intro whole _; rfl
  | cons p rest ih =>
      intro whole h
      obtain ⟨k, v⟩ := p
      rw [pyEqDict, Bool.and_eq_true]
      obtain ⟨hlk, hself⟩ := h k v (List.mem_cons_self _ _)
      constructor
      · rw [hlk]
        exact hself
      · exact ih whole (fun k2 v2 hm => h k2 v2 (List.mem_cons_of_mem _ hm))

theorem pyEq_refl_aux :
    ∀ (n : Nat) (v : JsonValue), jsize v ≤ n → wf v = true → pyEq v v = true := by
  intro n
  induction n using Nat.strong_induction_on with
  | _ n ih =>
      intro v hsize hwf
      cases v with
      | null => rfl
      | bool b => simp [pyEq]
      | num m => simp [pyEq]
      | str s => simp [pyEq]
      | arr xs =>
          rw [pyEq]
          refine pyEqList_refl_aux xs (fun x hx => ?_)
          have hlt := jsize_lt_of_mem_arr hx
          rw [wf] at hwf
          exact ih (jsize x) (by omega) x le_rfl (wfList_mem hwf hx)
      | obj kvs =>
          rw [pyEq, Bool.and_eq_true]
          refine ⟨by simp, ?_⟩
          rw [wf] at hwf
          refine pyEqDict_self_aux kvs kvs (fun k v hm => ?_)
          have hlt := jsize_lt_of_mem_obj hm
          refine ⟨lookup_of_mem_of_wfDict hwf hm, ?_⟩
          exact ih (jsize v) (by simp [jsize] at hlt hsize; omega) v le_rfl (wfDict_mem hwf hm)

theorem pyEq_refl (v : JsonValue) (hwf : wf v = true) : pyEq v v = true :=
  pyEq_refl_aux (jsize v) v le_rfl hwf

/-- Keys of an association list are pairwise distinct. -/
def keysNodup : List (String × JsonValue) → Bool
  | [] => true
  | (k, _) :: rest => rest.all (fun p => !(p.1 == k)) && keysNodup rest

theorem keysNodup_of_wfDict :
    ∀ {kvs : List (String × JsonValue)}, wfDict kvs = true → keysNodup kvs = true := by
  intro kvs
  induction kvs with
  | nil => intro _; rfl
  | cons p rest ih =>
      intro h
      obtain ⟨k, v⟩ := p
      rw [wfDict, Bool.and_eq_true, Bool.and_eq_true] at h
      rw [keysNodup, Bool.and_eq_true]
      exact ⟨h.1.1, ih h.2⟩

theorem lookup_split :
    ∀ {ys : List (String × JsonValue)} {k : String} {w : JsonValue},
      List.lookup k ys = some w →
      ∃ y1 y2, ys = y1 ++ (k, w) :: y2 ∧
        ∀ k2, k2 ≠ k → List.lookup k2 (y1 ++ y2) = List.lookup k2 ys := by
  intro ys
  induction ys with
  | nil => intro k w h; simp [List.lookup] at h
  | cons p rest ih =>
      intro k w h
      obtain ⟨k0, w0⟩ := p
      rw [List.lookup] at h
      by_cases he : k = k0
      · subst he
        simp only [beq_self_eq_true] at h
        cases h
        refine ⟨[], rest, by simp, fun k2 hk2 => ?_⟩
        rw [List.nil_append, List.lookup]
        have hb : (k2 == k) = false := beq_eq_false_iff_ne.mpr hk2
        rw [hb]
      · have hb : (k == k0) = false := beq_eq_false_iff_ne.mpr he
        rw [hb] at h
        obtain ⟨y1, y2, rfl, hpres⟩ := ih h
        refine ⟨(k0, w0) :: y1, y2, by simp, fun k2 hk2 => ?_⟩
        rw [List.cons_append, List.lookup, List.lookup]
        cases hb2 : (k2 == k0) with
        | true => rfl
        | false => exact hpres k2 hk2

theorem jsizeDict_append (l1 l2 : List (String × JsonValue)) :
    jsizeDict (l1 ++ l2) = jsizeDict l1 + jsizeDict l2 := by
  induction l1 with
  | nil => simp [jsizeDict]
  | cons p rest ih => simp [jsizeDict, ih]; omega

theorem pyEqDict_congr :
    ∀ (sub ys ys2 : List (String × JsonValue)),
      (∀ k, (∃ v, (k, v) ∈ sub) → List.lookup k ys2 = List.lookup k ys) →
      pyEqDict sub ys2 = pyEqDict sub ys := by
  intro sub
  induction sub with
  | nil => intro ys ys2 _; rfl
  | cons p rest ih =>
      intro ys ys2 h
      obtain ⟨k, v⟩ := p
      rw [pyEqDict, pyEqDict]
      rw [h k ⟨v, List.mem_cons_self _ _⟩]
      rw [ih ys ys2 (fun k2 hex => h k2 ⟨hex.choose, List.mem_cons_of_mem _ hex.choose_spec⟩)]

theorem pyEqDict_size_le :
    ∀ (sub ys : List (String × JsonValue)),
      (∀ k v w, (k, v) ∈ sub → List.lookup k ys = some w → pyEq v w = true →
        jsize v ≤ jsize w) →
      keysNodup sub = true → pyEqDict sub ys = true →
      jsizeDict sub ≤ jsizeDict ys := by
  intro sub
  induction sub with
  | nil =>
      intro ys _ _ _
      simp [jsizeDict]
  | cons p rest ih =>
      intro ys hsz hnd hpy
      obtain ⟨k, v⟩ := p
      rw [pyEqDict, Bool.and_eq_true] at hpy
      rw [keysNodup, Bool.and_eq_true] at hnd
      cases hlk : List.lookup k ys with
      | none => rw [hlk] at hpy; simp at hpy
      | some w =>
          rw [hlk] at hpy
          have hvw : pyEq v w = true := hpy.1
          have hle : jsize v ≤ jsize w :=
            hsz k v w (List.mem_cons_self _ _) hlk hvw
          obtain ⟨y1, y2, heq, hpres⟩ := lookup_split hlk
          have hknotin : ∀ k2 v2, (k2, v2) ∈ rest → k2 ≠ k := by
            intro k2 v2 hm he
            subst he
            have := List.all_eq_true.mp hnd.1 (k2, v2) hm
            simp at this
          have hcongr : pyEqDict rest (y1 ++ y2) = pyEqDict rest ys := by
            refine pyEqDict_congr rest ys (y1 ++ y2) (fun k2 hex => ?_)
            obtain ⟨v2, hv2⟩ := hex
            exact hpres k2 (hknotin k2 v2 hv2)
          have hrest : jsizeDict rest ≤ jsizeDict (y1 ++ y2) := by
            refine ih (y1 ++ y2) (fun k2 v2 w2 hm hlk2 hpy2 => ?_) hnd.2 ?_
            · have hne := hknotin k2 v2 hm
              rw [hpres k2 hne] at hlk2
              exact hsz k2 v2 w2 (List.mem_cons_of_mem _ hm) hlk2 hpy2
            · rw [hcongr]
              exact hpy.2
          rw [heq, jsizeDict_append]
          simp only [jsizeDict]
          rw [jsizeDict_append] at hrest
          omega

theorem pyEqList_size_le :
    ∀ (xs ys : List JsonValue),
      (∀ x y, x ∈ xs → pyEq x y = true → jsize x ≤ jsize y) →
      pyEqList xs ys = true → jsizeList xs ≤ jsizeList ys := by
  intro xs
  induction xs with
  | nil =>
      intro ys _ _
      rw [jsizeList]
      exact Nat.zero_le _
  | cons x rest ih =>
      intro ys h hpy
      cases ys with
      | nil => exact Bool.noConfusion hpy
      | cons y rest2 =>
          rw [pyEqList, Bool.and_eq_true] at hpy
          have h1 := h x y (List.mem_cons_self _ _) hpy.1
          have h2 := ih rest2 (fun a b ha => h a b (List.mem_cons_of_mem _ ha)) hpy.2
          rw [jsizeList, jsizeList]
          omega

theorem pyEq_size_le :
    ∀ (n : Nat) (a : JsonValue), jsize a ≤ n → wf a = true →
      ∀ b, pyEq a b = true → jsize a ≤ jsize b := by
  intro n
  induction n using Nat.strong_induction_on with
  | _ n ih =>
      intro a hsize hwf b hab
      cases a with
      | null => have := jsize_pos b; simp [jsize]; omega
      | bool x => have := jsize_pos b; simp [jsize]; omega
      | num x => have := jsize_pos b; simp [jsize]; omega
      | str x => have := jsize_pos b; simp [jsize]; omega
      | arr xs =>
          cases b <;> simp [pyEq] at hab
          case arr ys =>
            rw [wf] at hwf
            rw [jsize, jsize]
            have hsz : jsizeList xs ≤ jsizeList ys := by
              refine pyEqList_size_le xs ys (fun x y hx hxy => ?_) hab
              have hlt := jsize_lt_of_mem_arr hx
              simp [jsize] at hlt hsize
              exact ih (jsize x) (by omega) x le_rfl (wfList_mem hwf hx) y hxy
            omega
      | obj kvs =>
          cases b <;> simp [pyEq] at hab
          case obj kvs2 =>
            rw [wf] at hwf
            rw [jsize, jsize]
            have hsz : jsizeDict kvs ≤ jsizeDict kvs2 := by
              refine pyEqDict_size_le kvs kvs2 (fun k v w hm hlk hpy => ?_)
                (keysNodup_of_wfDict hwf) hab.2
              have hlt := jsize_lt_of_mem_obj hm
              simp [jsize] at hlt hsize
              exact ih (jsize v) (by omega) v le_rfl (wfDict_mem hwf hm) w hpy
            omega

/-- C7: for every well-formed tree `T` and every node `v` reachable in
`T` at location `L`, walking `T` for `v` under the `eq` comparator
yields `L` — a value is structurally equal to itself, and no strict
ancestor of the occurrence can equal `v` (it is strictly larger), so
the walk descends exactly to `L`. -/
theorem filter_eq_finds_every_reachable_node :
    ∀ (L : Location) (T v : JsonValue), wf T = true → resolve T L = some v →
      L ∈ filter_eq T v := by
  intro L
  induction L with
  | nil =>
      intro T v hwf h
      rw [resolve] at h
      cases h
      rw [filter_eq, filterWith, if_pos (pyEq_refl T hwf)]
      simp
  | cons s rest ih =>
      intro T v hwf h
      rw [resolve] at h
      cases hg : getChild T s with
      | none => rw [hg] at h; cases h
      | some c =>
          rw [hg] at h
          have hch := getChild_mem_children hg
          have hlt := jsize_lt_of_mem_children hch
          have hvle := jsize_resolve_le rest c v h
          have hwfc := wf_of_mem_children hwf hch
          have hne : ¬(pyEq T v = true) := by
            intro hcon
            have := pyEq_size_le (jsize T) T le_rfl hwf v hcon
            omega
          rw [filter_eq, filterWith, if_neg hne]
          exact mem_filterChildren.mpr ⟨s, c, rest, hch, rfl, ih c v hwfc h⟩

theorem filter_eq_finds_every_reachable_node_witness :
    [Step.key "c", Step.key "d"] ∈
      filter_eq (.obj [("a", .str "b"), ("c", .obj [("d", .str "e")])]) (.str "e") :=
  filter_eq_finds_every_reachable_node [Step.key "c", Step.key "d"]
    (.obj [("a", .str "b"), ("c", .obj [("d", .str "e")])]) (.str "e")
    (by decide) (by rfl)

/-- Does the accumulated path `L` end with the target key-path
(`L[-len(target):] == target`)? -/
def keyMatch (target L : List Step) : Bool :=
  decide (pySuffix L target.length = target)

/-- All strict prefixes of a location, shortest first. -/
def strictPrefixes : List Step → List (List Step)
  | [] => []
  | s :: rest => [] :: (strictPrefixes rest).map (fun q => s :: q)

/-- A location the key-path walk started at `prev` yields: the full
accumulated path suffix-matches the target, and no strict prefix
does (a prefix match would have pruned this node away). -/
def goodLoc (target : List Step) (prev L : Location) : Bool :=
  keyMatch target (prev ++ L) &&
    (strictPrefixes L).all (fun q => !keyMatch target (prev ++ q))

theorem goodLoc_cons (target : List Step) (prev : Location) (s : Step) (L : Location)
    (hm : keyMatch target prev = false) :
    goodLoc target prev (s :: L) = goodLoc target (prev ++ [s]) L := by
  simp only [goodLoc, strictPrefixes, List.all_cons, List.all_map, Function.comp,
    List.append_nil, List.append_assoc, List.cons_append, List.nil_append]
  rw [hm]
  simp
  rfl

theorem mem_preorderChildren_shape :
    ∀ {l : List (Step × JsonValue)} {L : Location},
      L ∈ preorderChildren l → ∃ s L2, L = s :: L2 := by
  intro l
  induction l with
  | nil => intro L h; rw [preorderChildren] at h; cases h
  | cons p rest ih =>
      intro L h
      rw [preorderChildren, List.mem_append] at h
      rcases h with h | h
      · obtain ⟨L2, _, rfl⟩ := List.mem_map.mp h
        exact ⟨p.1, L2, rfl⟩
      · exact ih h

theorem filterKeyChildren_eq :
    ∀ (l : List (Step × JsonValue)) (target : List Step) (prev : Location),
      keyMatch target prev = false →
      (∀ p ∈ l, ∀ prev2, filter_key p.2 target prev2
          = (preorderLocs p.2).filter (goodLoc target prev2)) →
      filterKeyChildren l target prev
        = (preorderChildren l).filter (goodLoc target prev) := by
  intro l
  induction l with
  | nil =>
      intro target prev _ _
      rw [filterKeyChildren, preorderChildren]
      rfl
  | cons p rest ih =>
      intro target prev hm h
      rw [filterKeyChildren, preorderChildren, List.filter_append]
      congr 1
      · rw [h p (List.mem_cons_self _ _) (prev ++ [p.1])]
        rw [List.filter_map]
        congr 1
        refine (List.filter_congr (fun L hL => ?_)).symm
        simpa using goodLoc_cons target prev p.1 L hm
      · exact ih target prev hm (fun q hq => h q (List.mem_cons_of_mem _ hq))

theorem filter_key_eq_filter :
    ∀ (n : Nat) (o : JsonValue), jsize o ≤ n →
      ∀ (target : List Step) (prev : Location),
        filter_key o target prev = (preorderLocs o).filter (goodLoc target prev) := by
  intro n
  induction n using Nat.strong_induction_on with
  | _ n ih =>
      intro o hsize target prev
      rw [filter_key, preorderLocs]
      by_cases hm : pySuffix prev target.length = target
      · rw [if_pos hm]
        have hkm : keyMatch target prev = true := by simp [keyMatch, hm]
        rw [List.filter_cons]
        have hgood : goodLoc target prev [] = true := by
          simp [goodLoc, strictPrefixes, hkm]
        rw [hgood]
        have hnil : (preorderChildren (get_children o)).filter (goodLoc target prev) = [] := by
          refine List.filter_eq_nil_iff.mpr (fun L hL => ?_)
          obtain ⟨s, L2, rfl⟩ := mem_preorderChildren_shape hL
          simp [goodLoc, strictPrefixes, hkm]
        rw [if_pos rfl, hnil]
      · rw [if_neg hm]
        have hkm : keyMatch target prev = false := by simp [keyMatch, hm]
        rw [List.filter_cons]
        have hgood : goodLoc target prev [] = false := by
          simp [goodLoc, strictPrefixes, hkm]
        rw [hgood, if_neg (by decide)]
        refine filterKeyChildren_eq (get_children o) target prev hkm (fun p hp prev2 => ?_)
        have := jsize_lt_of_mem_children hp
        exact ih (jsize p.2) (by omega) p.2 le_rfl target prev2

/-- C8: started with the empty accumulated path, the key-path walk
yields, in pre-order, exactly the locations whose final `len(target)`
steps equal the target and that lie inside no earlier-matched node;
on `{"a":"b","c":{"d":"e"},"f":[1,2,3]}` the target `["d"]` yields
exactly `["c","d"]` and the target `["f","d"]` yields nothing. -/
theorem filter_key_yields_trailing_matches :
    (∀ (obj : JsonValue) (target : List Step),
        filter_key obj target [] = (preorderLocs obj).filter (goodLoc target [])) ∧
    (filter_key (.obj [("a", .str "b"), ("c", .obj [("d", .str "e")]),
        ("f", .arr [.num 1, .num 2, .num 3])]) [Step.key "d"] []
      = [[Step.key "c", Step.key "d"]]) ∧
    (filter_key (.obj [("a", .str "b"), ("c", .obj [("d", .str "e")]),
        ("f", .arr [.num 1, .num 2, .num 3])]) [Step.key "f", Step.key "d"] []
      = []) := by
  refine ⟨?_, ?_, ?_⟩
  · intro obj target
    exact filter_key_eq_filter (jsize obj) obj le_rfl target []
  · simp [filter_key, filterKeyChildren, get_children, enumSteps, pySuffix]
  · simp [filter_key, filterKeyChildren, get_children, enumSteps, pySuffix]

/-- C3 counterexample: the range comparator is not total — Python
`compare_range(1, 2)` evaluates `"-" in 2` on a non-iterable right
operand and raises `TypeError` instead of returning a boolean. -/
theorem compare_range_not_total_counterexample :
    compare_range (.num 1) (.num 2) = none := by decide

/-- C3 (amended): the comparators `eq`, `is`, `in1` and `in2` are total
over all pairs of JSON values (`in1`/`in2` catch the `TypeError` of a
failed membership test and return false); the pattern comparators
`match` and `sub` fall back to plain equality whenever the left operand
is not a string or the pattern operand is not a string, and `fnmatch`
falls back to plain equality unless both operands are strings — they
can only fail on a malformed string pattern; the `range` and `eval`
comparators carry no totality guarantee at all — `compare_range(1, 2)`
raises a `TypeError`. -/
theorem comparator_totality_amended :
    (∀ (rm : String → String → Option Bool) (a b : JsonValue),
        a.isStr = false → compare_regexp rm a b = some (pyEq a b)) ∧
    (∀ (rm : String → String → Option Bool) (a b : JsonValue),
        a.isStr = true → b.isStr = false → compare_regexp rm a b = some (pyEq a b)) ∧
    (∀ (rm : String → String → Option Bool) (a b : JsonValue),
        a.isStr = false → compare_regexp_substr rm a b = some (pyEq a b)) ∧
    (∀ (rm : String → String → Option Bool) (a b : JsonValue),
        a.isStr = true → b.isStr = false →
          compare_regexp_substr rm a b = some (pyEq a b)) ∧
    (∀ a b : JsonValue, (a.isStr && b.isStr) = false →
        compare_fnmatch a b = pyEq a b) ∧
    (∀ a b : JsonValue, (pyIn a b).isSome = false → IN1 a b = false) ∧
    (compare_range (.num 1) (.num 2)).isSome = false := by
  refine ⟨?_, ?_, ?_, ?_, ?_, ?_, by decide⟩
  · intro rm a b h
    cases a <;> simp_all [JsonValue.isStr, compare_regexp]
  · intro rm a b ha hb
    cases a <;> cases b <;> simp_all [JsonValue.isStr, compare_regexp]
  · intro rm a b h
    cases a <;> simp_all [JsonValue.isStr, compare_regexp_substr]
  · intro rm a b ha hb
    cases a <;> cases b <;> simp_all [JsonValue.isStr, compare_regexp_substr]
  · intro a b h
    cases a <;> cases b <;> simp_all [JsonValue.isStr, compare_fnmatch]
  · intro a b h
    rw [IN1]
    cases hp : pyIn a b with
    | none => rfl
    | some v => rw [hp] at h; simp at h

theorem comparator_totality_amended_witness :
    compare_regexp (fun _ _ => none) (.num 1) (.str "p")
        = some (pyEq (.num 1) (.str "p")) ∧
    compare_fnmatch (.num 1) (.str "p") = pyEq (.num 1) (.str "p") ∧
    IN1 JsonValue.null (.num 7) = false :=
  ⟨comparator_totality_amended.1 (fun _ _ => none) (.num 1) (.str "p") (by decide),
   comparator_totality_amended.2.2.2.2.1 (.num 1) (.str "p") (by decide),
   comparator_totality_amended.2.2.2.2.2.1 JsonValue.null (.num 7) (by decide)⟩
